import Mathlib

/-!
Shallow embedding of the flow-embeddings repository:
`hodge_laplacian_decomp.py` (compute_incidence_matrices_B,
compute_hodge_laplacian_decomp) and `edge_flow.py` (get_edge_flow).
Vertices are natural-number labels (intended range 1..N); matrices are
Mathlib matrices over ℤ indexed by `Fin`.
-/

namespace HodgeFlow

open Matrix

deriving instance DecidableEq for Except

/-- A finite undirected graph in the style of networkx: `N` nodes (intended
labels 1..N) and a list of edges.  networkx stores each undirected edge once;
theorems that need that take it as an explicit hypothesis. -/
structure Graph where
  N : ℕ
  edges : List (ℕ × ℕ)

/-- `tuple(sorted(edge))`: the edge normalized so the tail is the smaller
endpoint. -/
def normalizeEdge (p : ℕ × ℕ) : ℕ × ℕ := (min p.1 p.2, max p.1 p.2)

/-- Lexicographic comparison of pairs, as Python compares 2-tuples. -/
def pairLe (p q : ℕ × ℕ) : Prop := p.1 < q.1 ∨ (p.1 = q.1 ∧ p.2 ≤ q.2)

instance : DecidableRel pairLe := fun p q => by unfold pairLe; infer_instance

/-- `edge_list = sorted([tuple(sorted(edge)) for edge in G.edges()])`.
Python sorted is a stable sort, and `pairLe` is total and antisymmetric on
pairs, so the sorted list is unique; an insertion sort computes it. -/
def edge_list (G : Graph) : List (ℕ × ℕ) :=
  List.insertionSort pairLe (G.edges.map normalizeEdge)

/-- `M = len(edge_list)`. -/
def numEdges (G : Graph) : ℕ := (edge_list G).length

/-- `edge_to_idx = {edge: idx for idx, edge in enumerate(edge_list)}` followed
by `.get(e)`.  A Python dict comprehension keeps the LAST binding of a repeated
key, so the lookup yields the last index at which `e` occurs, and `none` when
`e` is absent. -/
def edge_to_idx (el : List (ℕ × ℕ)) (e : ℕ × ℕ) : Option ℕ :=
  match el with
  | [] => none
  | x :: xs =>
    match edge_to_idx xs e with
    | some j => some (j + 1)
    | none => if x = e then some 0 else none

/-- networkx adjacency: the unordered pair `{a,b}` is an edge of `G`. -/
def hasEdge (G : Graph) (a b : ℕ) : Prop :=
  normalizeEdge (a, b) ∈ G.edges.map normalizeEdge

instance (G : Graph) (a b : ℕ) : Decidable (hasEdge G a b) := by
  unfold hasEdge; infer_instance

/-- Models `[tuple(sorted(c)) for c in nx.enumerate_all_cliques(G) if len(c)==3]`:
the external clique enumerator yields every 3-clique exactly once, and each is
then sorted; the enumeration order of networkx is unspecified, so the cliques
are listed here in lexicographic order of their sorted triples. -/
def triangles (G : Graph) : List (ℕ × ℕ × ℕ) :=
  (List.range (G.N + 1)).flatMap fun a =>
    (List.range (G.N + 1)).flatMap fun b =>
      (List.range (G.N + 1)).filterMap fun c =>
        if a < b ∧ b < c ∧ hasEdge G a b ∧ hasEdge G b c ∧ hasEdge G a c then
          some (a, b, c)
        else none

/-- `T = len(triangles)`. -/
def numTriangles (G : Graph) : ℕ := (triangles G).length

/-- `B1`, the N×M vertex-to-edge incidence matrix: for edge `(u,v)` in column
`j` the code assigns `B1[u-1,j] = -1` then `B1[v-1,j] = 1`; the second
assignment overwrites the first when the rows coincide, hence the head test
comes first. -/
def B1 (G : Graph) : Matrix (Fin G.N) (Fin (numEdges G)) ℤ :=
  Matrix.of fun i j =>
    let e := (edge_list G).get ⟨j.1, j.isLt⟩
    if (i : ℕ) = e.2 - 1 then 1 else if (i : ℕ) = e.1 - 1 then -1 else 0

/-- `B2`, the M×T edge-to-triangle incidence matrix: for triangle
`(v1,v2,v3)` the code assigns `1` at the row of `e1 = (v1,v2)`, `1` at the row
of `e2 = (v2,v3)` and `-1` at the row of `e3 = (v1,v3)` (each guarded by the
lookup succeeding); the last assignment wins, hence `e3` is tested first. -/
def B2 (G : Graph) : Matrix (Fin (numEdges G)) (Fin (numTriangles G)) ℤ :=
  Matrix.of fun j t =>
    let tr := (triangles G).get ⟨t.1, t.isLt⟩
    if edge_to_idx (edge_list G) (tr.1, tr.2.2) = some j.1 then -1
    else if edge_to_idx (edge_list G) (tr.2.1, tr.2.2) = some j.1 then 1
    else if edge_to_idx (edge_list G) (tr.1, tr.2.1) = some j.1 then 1
    else 0

/-- `compute_incidence_matrices_B(G, k_max)`: raises ValueError unless
`1 <= k_max <= 2`; afterwards `k_max` is never consulted again and both
matrices are always built. -/
def compute_incidence_matrices_B (G : Graph) (k_max : ℤ) :
    Except String
      (Matrix (Fin G.N) (Fin (numEdges G)) ℤ ×
       Matrix (Fin (numEdges G)) (Fin (numTriangles G)) ℤ) :=
  if k_max < 1 ∨ 2 < k_max then .error "k_max must be between 1 and 2"
  else .ok (B1 G, B2 G)

/-- The failure raised by `get_edge_flow` when a traversed pair is not an edge:
`ValueError(f"Traversed edge ({u}, {v}) does not exist in the graph G.")`,
carrying both endpoints in traversal order. -/
inductive FlowError where
  | edgeNotInComplex (u v : ℕ)
deriving DecidableEq

/-- `f[j] += d` on the flow accumulator. -/
def flowUpdate (f : ℕ → ℤ) (j : ℕ) (d : ℤ) : ℕ → ℤ :=
  fun i => if i = j then f i + d else f i

/-- The traversal loop of `get_edge_flow`: for each `(u,v)`, normalize to
`(a,b) = sorted((u,v))`, look it up, fail if absent, else add `+1` when the
traversal equals the canonical orientation and `-1` otherwise. -/
def edgeFlowAux (el : List (ℕ × ℕ)) (f : ℕ → ℤ) :
    List (ℕ × ℕ) → Except FlowError (ℕ → ℤ)
  | [] => .ok f
  | (u, v) :: rest =>
    match edge_to_idx el (normalizeEdge (u, v)) with
    | none => .error (.edgeNotInComplex u v)
    | some j =>
      if (u, v) = normalizeEdge (u, v) then
        edgeFlowAux el (flowUpdate f j 1) rest
      else
        edgeFlowAux el (flowUpdate f j (-1)) rest

/-- `get_edge_flow(G, traversed_edge_list)`: the flow vector of length `M`
(the zero vector updated by each traversal), or the error of the first bad
traversal. -/
def get_edge_flow (G : Graph) (ts : List (ℕ × ℕ)) : Except FlowError (List ℤ) :=
  (edgeFlowAux (edge_list G) (fun _ => 0) ts).map fun f =>
    (List.range (numEdges G)).map f

/-- The Hodge-1 Laplacian `L1 = B1.T @ B1 + B2 @ B2.T` assembled by
`compute_hodge_laplacian_decomp` from the integer incidence matrices. -/
def hodgeL1 (G : Graph) : Matrix (Fin (numEdges G)) (Fin (numEdges G)) ℤ :=
  (B1 G)ᵀ * B1 G + B2 G * (B2 G)ᵀ

/-- The integer Laplacian viewed over the reals, for stating the quadratic
form and eigenvalue properties with real vectors. -/
def hodgeL1R (G : Graph) : Matrix (Fin (numEdges G)) (Fin (numEdges G)) ℝ :=
  (hodgeL1 G).map fun z : ℤ => (z : ℝ)

/-- The result type of `np.linalg.eig` on an `m × m` matrix: the vector of
eigenvalues and the matrix of eigenvectors. -/
def EigResult (m : ℕ) : Type := (Fin m → ℝ) × Matrix (Fin m) (Fin m) ℝ

/-- `compute_hodge_laplacian_decomp(B1, B2)`: builds
`L1 = B1.T @ B1 + B2 @ B2.T`, calls the external eigensolver `eig`
(modelling `np.linalg.eig`, which returns the pair eigenvalues/eigenvectors),
and returns ONLY the second component: the statement `return eigenvectors`
discards the eigenvalues. -/
def compute_hodge_laplacian_decomp {n m t : ℕ}
    (eig : Matrix (Fin m) (Fin m) ℝ → EigResult m)
    (M1 : Matrix (Fin n) (Fin m) ℝ) (M2 : Matrix (Fin m) (Fin t) ℝ) :
    Matrix (Fin m) (Fin m) ℝ :=
  (eig (M1ᵀ * M1 + M2 * M2ᵀ)).2

/-- The triangle complex used by the concrete scenarios of the spec:
vertices {1,2,3}, edges {(1,2),(2,3),(1,3)}. -/
def triG : Graph := ⟨3, [(1, 2), (2, 3), (1, 3)]⟩

/-- A one-vertex graph with a self-loop edge (1,1). -/
def loopG : Graph := ⟨1, [(1, 1)]⟩

/-- networkx graphs have nodes labeled 1..N per the docstrings, so every edge
endpoint lies in that range. -/
def VertexLabels (G : Graph) : Prop :=
  ∀ p ∈ G.edges, 1 ≤ p.1 ∧ p.1 ≤ G.N ∧ 1 ≤ p.2 ∧ p.2 ≤ G.N

/-- No edge is a self-loop. -/
def NoSelfLoops (G : Graph) : Prop := ∀ p ∈ G.edges, p.1 ≠ p.2

/-- networkx stores each undirected edge once: no two entries of the edge list
describe the same unordered pair. -/
def EdgesDistinct (G : Graph) : Prop :=
  G.edges.Pairwise fun p q => normalizeEdge p ≠ normalizeEdge q

instance (G : Graph) : Decidable (VertexLabels G) := by
  unfold VertexLabels; infer_instance

instance (G : Graph) : Decidable (NoSelfLoops G) := by
  unfold NoSelfLoops; infer_instance

instance (G : Graph) : Decidable (EdgesDistinct G) := by
  unfold EdgesDistinct; infer_instance

/-! ### Helper lemmas about the edge enumeration and the index dictionary -/

theorem mem_edge_list {G : Graph} {e : ℕ × ℕ} :
    e ∈ edge_list G ↔ e ∈ G.edges.map normalizeEdge :=
  (List.perm_insertionSort pairLe (G.edges.map normalizeEdge)).mem_iff

theorem normalizeEdge_of_le {a b : ℕ} (h : a ≤ b) : normalizeEdge (a, b) = (a, b) := by
  simp [normalizeEdge, min_eq_left h, max_eq_right h]

theorem edge_to_idx_getElem {el : List (ℕ × ℕ)} {e : ℕ × ℕ} :
    ∀ {j : ℕ}, edge_to_idx el e = some j → el[j]? = some e := by
  induction el with
  | nil => intro j h; simp [edge_to_idx] at h
  | cons x xs ih =>
    intro j h
    unfold edge_to_idx at h
    cases hx : edge_to_idx xs e with
    | some j0 =>
      rw [hx] at h
      cases h
      simpa using ih hx
    | none =>
      rw [hx] at h
      by_cases hxe : x = e
      · rw [if_pos hxe] at h
        cases h
        simpa using hxe
      · rw [if_neg hxe] at h
        cases h

theorem edge_to_idx_none {el : List (ℕ × ℕ)} {e : ℕ × ℕ} :
    edge_to_idx el e = none ↔ e ∉ el := by
  induction el with
  | nil => simp [edge_to_idx]
  | cons x xs ih =>
    unfold edge_to_idx
    cases hx : edge_to_idx xs e with
    | some j0 =>
      simp only [reduceCtorEq, false_iff, List.mem_cons, not_or]
      intro hmem
      have : e ∈ xs := List.getElem?_mem (edge_to_idx_getElem hx)
      exact hmem.2 this
    | none =>
      by_cases hxe : x = e
      · simp [hxe, ih.mp hx]
      · simp [hxe, List.mem_cons, ih.mp hx, Ne.symm hxe]

theorem edge_to_idx_mem {el : List (ℕ × ℕ)} {e : ℕ × ℕ} (h : e ∈ el) :
    ∃ j, edge_to_idx el e = some j := by
  cases hx : edge_to_idx el e with
  | some j => exact ⟨j, rfl⟩
  | none => exact absurd h (edge_to_idx_none.mp hx)

theorem edge_to_idx_of_getElem {el : List (ℕ × ℕ)} (hnd : el.Nodup) :
    ∀ {j : ℕ} {e : ℕ × ℕ}, el[j]? = some e → edge_to_idx el e = some j := by
  induction el with
  | nil => intro j e h; simp at h
  | cons x xs ih =>
    intro j e h
    rw [List.nodup_cons] at hnd
    cases j with
    | zero =>
      simp only [List.getElem?_cons_zero, Option.some.injEq] at h
      subst h
      have : edge_to_idx xs x = none := edge_to_idx_none.mpr hnd.1
      unfold edge_to_idx
      rw [this, if_pos rfl]
    | succ j0 =>
      rw [List.getElem?_cons_succ] at h
      unfold edge_to_idx
      rw [ih hnd.2 h]

theorem edge_list_nodup {G : Graph} (h : EdgesDistinct G) : (edge_list G).Nodup := by
  have h1 : (G.edges.map normalizeEdge).Nodup := List.pairwise_map.mpr h
  exact ((List.perm_insertionSort pairLe (G.edges.map normalizeEdge)).symm).nodup h1

theorem edge_list_lt {G : Graph} (hs : NoSelfLoops G) {e : ℕ × ℕ}
    (he : e ∈ edge_list G) : e.1 < e.2 := by
  rcases List.mem_map.mp (mem_edge_list.mp he) with ⟨p, hp, rfl⟩
  exact min_lt_max.mpr (hs p hp)

theorem edge_list_labels {G : Graph} (hl : VertexLabels G) {e : ℕ × ℕ}
    (he : e ∈ edge_list G) : 1 ≤ e.1 ∧ e.1 ≤ G.N ∧ 1 ≤ e.2 ∧ e.2 ≤ G.N := by
  rcases List.mem_map.mp (mem_edge_list.mp he) with ⟨p, hp, rfl⟩
  rcases hl p hp with ⟨h1, h2, h3, h4⟩
  constructor
  · exact le_min h1 h3
  constructor
  · exact min_le_of_left_le h2
  constructor
  · exact le_max_of_le_left h1
  · exact max_le h2 h4

theorem triangles_mem {G : Graph} {x : ℕ × ℕ × ℕ} (h : x ∈ triangles G) :
    x.1 < x.2.1 ∧ x.2.1 < x.2.2 ∧ hasEdge G x.1 x.2.1 ∧
      hasEdge G x.2.1 x.2.2 ∧ hasEdge G x.1 x.2.2 := by
  simp only [triangles, List.mem_flatMap, List.mem_filterMap] at h
  rcases h with ⟨a, -, b, -, c, -, hc⟩
  split at hc
  · cases hc
    assumption
  · cases hc

theorem hasEdge_mem_edge_list {G : Graph} {a b : ℕ} (hab : a ≤ b)
    (h : hasEdge G a b) : (a, b) ∈ edge_list G := by
  have := mem_edge_list.mpr h
  rwa [normalizeEdge_of_le hab] at this

/-- If every traversal before `(u, v)` resolves to an edge and `(u, v)` does
not, the loop stops at `(u, v)` with its error, whatever the accumulator. -/
theorem edgeFlowAux_error {el : List (ℕ × ℕ)} {u v : ℕ} (ts2 : List (ℕ × ℕ))
    (hne : normalizeEdge (u, v) ∉ el) :
    ∀ (ts1 : List (ℕ × ℕ)) (f0 : ℕ → ℤ), (∀ p ∈ ts1, normalizeEdge p ∈ el) →
      edgeFlowAux el f0 (ts1 ++ (u, v) :: ts2) =
        .error (.edgeNotInComplex u v) := by
  intro ts1
  induction ts1 with
  | nil =>
    intro f0 _
    simp only [List.nil_append, edgeFlowAux]
    rw [edge_to_idx_none.mpr hne]
  | cons p ts1 ih =>
    intro f0 hmem
    obtain ⟨a, b⟩ := p
    have hp : normalizeEdge (a, b) ∈ el := hmem (a, b) (List.mem_cons_self _ _)
    obtain ⟨j, hj⟩ := edge_to_idx_mem hp
    have htail : ∀ q ∈ ts1, normalizeEdge q ∈ el := fun q hq =>
      hmem q (List.mem_cons_of_mem _ hq)
    simp only [List.cons_append, edgeFlowAux, hj]
    by_cases hd : (a, b) = normalizeEdge (a, b)
    · rw [if_pos hd]; exact ih _ htail
    · rw [if_neg hd]; exact ih _ htail

/-! ### The claims -/

/-- C10: `k_max` only gates the initial range check; with `k_max = 1` and
`k_max = 2` `compute_incidence_matrices_B` returns exactly the same pair
`(B1, B2)`, triangles enumerated and `B2` fully built in both cases. -/
theorem c10_kmax_only_gates_range_check (G : Graph) :
    compute_incidence_matrices_B G 1 = compute_incidence_matrices_B G 2 := by
  norm_num [compute_incidence_matrices_B]

/-- C3 counterexample: on the triangle complex the traversal list
`[(1,2),(3,1)]` does NOT encode to `[+1, +1, 0]`: traversing `(3,1)` against
the canonical orientation `(1,3)` contributes `-1`, not `+1`. -/
theorem c3_flow_scenario_counterexample :
    get_edge_flow triG [(1, 2), (3, 1)] ≠ .ok [1, 1, 0] := by decide

/-- C3 amended: on the complex with vertices {1,2,3}, edges
{(1,2),(2,3),(1,3)} and triangle (1,2,3), the flow encoder applied to
`[(1,2),(3,1)]` returns `f = [+1, -1, 0]` indexed by
`edge_list = [(1,2),(1,3),(2,3)]`. -/
theorem c3_amended_flow_scenario :
    get_edge_flow triG [(1, 2), (3, 1)] = .ok [1, -1, 0] := by decide

/-- C4 counterexample: on the one-vertex graph with the self-loop edge (1,1)
neither extractor rejects the input: the self-loop appears in `edge_list`, the
incidence construction succeeds, and `get_edge_flow` happily traverses the
self-loop. There is no SelfLoopEdge failure anywhere in the code. -/
theorem c4_self_loop_counterexample :
    edge_list loopG = [(1, 1)] ∧
      compute_incidence_matrices_B loopG 2 = .ok (B1 loopG, B2 loopG) ∧
      get_edge_flow loopG [(1, 1)] = .ok [1] := by decide

/-- C4 amended: a self-loop edge `(u,u)` is NOT rejected: extraction always
succeeds, the self-loop appears in `edge_list` (hence in the edge enumeration
of both `compute_incidence_matrices_B` and `get_edge_flow`), and traversing it
produces a flow vector rather than an error. -/
theorem c4_amended_self_loop_accepted (G : Graph) (u : ℕ)
    (h : (u, u) ∈ G.edges) :
    (u, u) ∈ edge_list G ∧
      compute_incidence_matrices_B G 2 = .ok (B1 G, B2 G) ∧
      ∃ f, get_edge_flow G [(u, u)] = .ok f := by
  have hn : normalizeEdge (u, u) = (u, u) := normalizeEdge_of_le (le_refl u)
  have hmem : (u, u) ∈ edge_list G := by
    rw [mem_edge_list, ← hn]
    exact List.mem_map_of_mem normalizeEdge h
  obtain ⟨j, hj⟩ := edge_to_idx_mem hmem
  refine ⟨hmem, by norm_num [compute_incidence_matrices_B], ?_⟩
  refine ⟨(List.range (numEdges G)).map (flowUpdate (fun _ => 0) j 1), ?_⟩
  unfold get_edge_flow
  simp [edgeFlowAux, hn, hj, Except.map]

/-- C4 witness: the amended statement holds at the concrete self-loop graph. -/
theorem c4_witness :
    (1, 1) ∈ edge_list loopG ∧
      compute_incidence_matrices_B loopG 2 = .ok (B1 loopG, B2 loopG) ∧
      ∃ f, get_edge_flow loopG [(1, 1)] = .ok f :=
  c4_amended_self_loop_accepted loopG 1 (by decide)

/-- C6: on the graph with vertices {1,2,3} and edges {(1,2),(2,3),(1,3)}
the extractor yields `edge_list = [(1,2),(1,3),(2,3)]`, `B1` with columns
`[-1,1,0]`, `[-1,0,1]`, `[0,-1,1]`, and `B2 = [1,-1,1]` transposed. -/
theorem c6_concrete_incidence :
    edge_list triG = [(1, 2), (1, 3), (2, 3)] ∧
      B1 triG = Matrix.of ![![-1, -1, 0], ![1, 0, -1], ![0, 1, 1]] ∧
      B2 triG = Matrix.of ![![1], ![-1], ![1]] := by decide

/-- C9: if every traversal before `(u, v)` resolves to an edge of `G` and the
normalization of `(u, v)` is not an edge, `get_edge_flow` fails with an
edge-not-in-complex error naming both endpoints `u` and `v` in traversal
order, and produces no flow vector. -/
theorem c9_edge_not_in_complex (G : Graph) (ts1 : List (ℕ × ℕ)) (u v : ℕ)
    (ts2 : List (ℕ × ℕ)) (h1 : ∀ p ∈ ts1, normalizeEdge p ∈ edge_list G)
    (h2 : normalizeEdge (u, v) ∉ edge_list G) :
    get_edge_flow G (ts1 ++ (u, v) :: ts2) =
      .error (.edgeNotInComplex u v) := by
  unfold get_edge_flow
  rw [edgeFlowAux_error ts2 h2 ts1 _ h1]
  rfl

/-- C9 witness: traversal `(1,4)` on the 3-vertex triangle graph fails with
the edge-not-in-complex error naming `(1, 4)`. -/
theorem c9_witness :
    get_edge_flow triG [(1, 4)] = .error (.edgeNotInComplex 1 4) :=
  c9_edge_not_in_complex triG [] 1 4 [] (by decide) (by decide)

/-- C2 counterexample: the eigenvalues are not returned to the caller: two
eigensolvers that agree on eigenvectors but disagree on eigenvalues produce
identical outputs of `compute_hodge_laplacian_decomp`, so no caller can
recover the eigenvalues from what is returned. -/
theorem c2_eigenvalues_not_returned :
    ∃ e1 e2 : Matrix (Fin 1) (Fin 1) ℝ → EigResult 1,
      (∀ L, (e1 L).2 = (e2 L).2) ∧ (∃ L, (e1 L).1 ≠ (e2 L).1) ∧
        ∀ M1 M2 : Matrix (Fin 1) (Fin 1) ℝ,
          compute_hodge_laplacian_decomp e1 M1 M2 =
            compute_hodge_laplacian_decomp e2 M1 M2 := by
  refine ⟨fun L => (fun _ => 0, L), fun L => (fun _ => 1, L),
    fun L => rfl, ⟨1, ?_⟩, fun M1 M2 => rfl⟩
  intro h
  have h0 := congrFun h 0
  norm_num at h0

/-- C2 amended: given `B1` and `B2` consistent on the shared edge dimension,
the solver computes `L1 = B1ᵗ * B1 + B2 * B2ᵗ`, runs the eigensolver on it,
and returns ONLY the eigenvector matrix; the output never depends on the
eigenvalue component of the eigendecomposition. -/
theorem c2_amended_returns_eigenvectors_only {n m t : ℕ}
    (eig eig2 : Matrix (Fin m) (Fin m) ℝ → EigResult m)
    (M1 : Matrix (Fin n) (Fin m) ℝ) (M2 : Matrix (Fin m) (Fin t) ℝ) :
    compute_hodge_laplacian_decomp eig M1 M2 = (eig (M1ᵀ * M1 + M2 * M2ᵀ)).2 ∧
      ((∀ L, (eig L).2 = (eig2 L).2) →
        compute_hodge_laplacian_decomp eig M1 M2 =
          compute_hodge_laplacian_decomp eig2 M1 M2) :=
  ⟨rfl, fun h => h _⟩

/-- C2 witness: the amended statement instantiated at concrete eigensolvers
that differ only in the eigenvalue component, on 1×1 matrices. -/
theorem c2_witness :
    compute_hodge_laplacian_decomp (fun L => ((fun _ => 0), L)) (1 : Matrix (Fin 1) (Fin 1) ℝ)
        (1 : Matrix (Fin 1) (Fin 1) ℝ) =
      ((fun L => (((fun _ => 0) : Fin 1 → ℝ), L))
        ((1 : Matrix (Fin 1) (Fin 1) ℝ)ᵀ * (1 : Matrix (Fin 1) (Fin 1) ℝ) +
          (1 : Matrix (Fin 1) (Fin 1) ℝ) * (1 : Matrix (Fin 1) (Fin 1) ℝ)ᵀ)).2 ∧
      compute_hodge_laplacian_decomp (fun L => ((fun _ => 0), L)) (1 : Matrix (Fin 1) (Fin 1) ℝ)
          (1 : Matrix (Fin 1) (Fin 1) ℝ) =
        compute_hodge_laplacian_decomp (fun L => ((fun _ => 1), L)) (1 : Matrix (Fin 1) (Fin 1) ℝ)
          (1 : Matrix (Fin 1) (Fin 1) ℝ) :=
  ⟨(c2_amended_returns_eigenvectors_only (fun L => ((fun _ => 0), L))
      (fun L => ((fun _ => 1), L)) 1 1).1,
    (c2_amended_returns_eigenvectors_only (fun L => ((fun _ => 0), L))
      (fun L => ((fun _ => 1), L)) 1 1).2 (fun _ => rfl)⟩

/-- C1: for every graph with vertices labeled 1..N and no self-loops, the
incidence matrices returned by `compute_incidence_matrices_B` satisfy
`B1 * B2 = 0` (the all-zero N×T matrix, in exact integer arithmetic), in
particular when `T > 0`. -/
theorem c1_boundary_of_boundary (G : Graph) (hl : VertexLabels G)
    (_hs : NoSelfLoops G) : B1 G * B2 G = 0 := by
  ext i t
  rw [Matrix.mul_apply, Matrix.zero_apply]
  rcases htr_eq : (triangles G).get ⟨t.1, t.isLt⟩ with ⟨v1, v2, v3⟩
  have htri : ((v1, v2, v3) : ℕ × ℕ × ℕ) ∈ triangles G := by
    rw [← htr_eq]; exact List.get_mem _ _ _
  rw [List.get_eq_getElem] at htr_eq
  obtain ⟨hv12, hv23, he12, he23, he13⟩ := triangles_mem htri
  dsimp only at hv12 hv23 he12 he23 he13
  have h12 : (v1, v2) ∈ edge_list G := hasEdge_mem_edge_list (le_of_lt hv12) he12
  have h23 : (v2, v3) ∈ edge_list G := hasEdge_mem_edge_list (le_of_lt hv23) he23
  have h13 : (v1, v3) ∈ edge_list G :=
    hasEdge_mem_edge_list (le_of_lt (lt_trans hv12 hv23)) he13
  have hv1pos : 1 ≤ v1 := (edge_list_labels hl h12).1
  obtain ⟨j1, hj1⟩ := edge_to_idx_mem h12
  obtain ⟨j2, hj2⟩ := edge_to_idx_mem h23
  obtain ⟨j3, hj3⟩ := edge_to_idx_mem h13
  obtain ⟨hlt1, hev1⟩ := List.getElem?_eq_some.mp (edge_to_idx_getElem hj1)
  obtain ⟨hlt2, hev2⟩ := List.getElem?_eq_some.mp (edge_to_idx_getElem hj2)
  obtain ⟨hlt3, hev3⟩ := List.getElem?_eq_some.mp (edge_to_idx_getElem hj3)
  have hne12 : j1 ≠ j2 := by
    intro h; subst h
    exact absurd (congrArg Prod.fst (hev1.symm.trans hev2)) (Nat.ne_of_lt hv12)
  have hne13 : j1 ≠ j3 := by
    intro h; subst h
    exact absurd (congrArg Prod.snd (hev1.symm.trans hev3)) (Nat.ne_of_lt hv23)
  have hne23 : j2 ≠ j3 := by
    intro h; subst h
    exact absurd (congrArg Prod.fst (hev2.symm.trans hev3))
      (Ne.symm (Nat.ne_of_lt hv12))
  have hzero : ∀ x ∈ Finset.univ,
      x ∉ ({⟨j1, hlt1⟩, ⟨j2, hlt2⟩, ⟨j3, hlt3⟩} : Finset (Fin (numEdges G))) →
        B1 G i x * B2 G x t = 0 := by
    intro x _ hx
    simp only [Finset.mem_insert, Finset.mem_singleton] at hx
    push_neg at hx
    obtain ⟨hx1, hx2, hx3⟩ := hx
    have hx1n : j1 ≠ x.1 := fun h => hx1 (Fin.ext h.symm)
    have hx2n : j2 ≠ x.1 := fun h => hx2 (Fin.ext h.symm)
    have hx3n : j3 ≠ x.1 := fun h => hx3 (Fin.ext h.symm)
    have hB2x : B2 G x t = 0 := by
      simp [B2, Matrix.of_apply, htr_eq, hj1, hj2, hj3, hx1n, hx2n, hx3n]
    rw [hB2x, mul_zero]
  rw [← Finset.sum_subset (Finset.subset_univ _) hzero]
  have hB2a : B2 G ⟨j1, hlt1⟩ t = 1 := by
    simp [B2, Matrix.of_apply, htr_eq, hj1, hj2, hj3,
      Ne.symm hne12, Ne.symm hne13]
  have hB2b : B2 G ⟨j2, hlt2⟩ t = 1 := by
    simp [B2, Matrix.of_apply, htr_eq, hj2, hj3, Ne.symm hne23]
  have hB2c : B2 G ⟨j3, hlt3⟩ t = -1 := by
    simp [B2, Matrix.of_apply, htr_eq, hj3]
  have hB1a : B1 G i ⟨j1, hlt1⟩ =
      if (i : ℕ) = v2 - 1 then 1 else if (i : ℕ) = v1 - 1 then -1 else 0 := by
    simp [B1, Matrix.of_apply, hev1]
  have hB1b : B1 G i ⟨j2, hlt2⟩ =
      if (i : ℕ) = v3 - 1 then 1 else if (i : ℕ) = v2 - 1 then -1 else 0 := by
    simp [B1, Matrix.of_apply, hev2]
  have hB1c : B1 G i ⟨j3, hlt3⟩ =
      if (i : ℕ) = v3 - 1 then 1 else if (i : ℕ) = v1 - 1 then -1 else 0 := by
    simp [B1, Matrix.of_apply, hev3]
  rw [Finset.sum_insert (by
      simp [Finset.mem_insert, Finset.mem_singleton, Fin.ext_iff, hne12, hne13]),
    Finset.sum_insert (by simp [Finset.mem_singleton, Fin.ext_iff, hne23]),
    Finset.sum_singleton, hB2a, hB2b, hB2c, hB1a, hB1b, hB1c]
  by_cases h1 : (i : ℕ) = v1 - 1 <;> by_cases h2 : (i : ℕ) = v2 - 1 <;>
    by_cases h3 : (i : ℕ) = v3 - 1 <;> simp [h1, h2, h3] <;> omega

/-- C1 witness: the boundary-of-boundary identity at the concrete triangle
complex, where `T = 1 > 0`. -/
theorem c1_witness : B1 triG * B2 triG = 0 :=
  c1_boundary_of_boundary triG (by decide) (by decide)

theorem normalizeEdge_cases {u v a b : ℕ} (h : normalizeEdge (u, v) = (a, b)) :
    (u, v) = (a, b) ∨ (u, v) = (b, a) := by
  rcases le_total u v with huv | hvu
  · left; rw [← h, normalizeEdge_of_le huv]
  · right
    have hvu2 : normalizeEdge (u, v) = (v, u) := by
      simp [normalizeEdge, min_eq_right hvu, max_eq_left hvu]
    rw [hvu2] at h
    have h1 : v = a := congrArg Prod.fst h
    have h2 : u = b := congrArg Prod.snd h
    subst h1; subst h2; rfl

theorem normalizeEdge_swap {a b : ℕ} (h : a ≤ b) : normalizeEdge (b, a) = (a, b) := by
  simp [normalizeEdge, min_eq_right h, max_eq_left h]

/-- The net-count characterization of the flow accumulator: after a
successful run, the entry of edge `(a, b)` grew by the number of forward
traversals minus the number of reverse traversals. -/
theorem edgeFlowAux_char {el : List (ℕ × ℕ)} (hnd : el.Nodup)
    (hlt : ∀ e ∈ el, e.1 < e.2) :
    ∀ (ts : List (ℕ × ℕ)) (f0 F : ℕ → ℤ), edgeFlowAux el f0 ts = .ok F →
      ∀ (j a b : ℕ), el[j]? = some (a, b) →
        F j = f0 j + (ts.countP fun p => p = (a, b))
          - (ts.countP fun p => p = (b, a)) := by
  intro ts
  induction ts with
  | nil =>
    intro f0 F h j a b _
    injection h with h
    subst h
    simp
  | cons p rest ih =>
    intro f0 F h j a b hj
    obtain ⟨u, v⟩ := p
    have hab : a < b := hlt (a, b) (List.getElem?_mem hj)
    cases hidx : edge_to_idx el (normalizeEdge (u, v)) with
    | none =>
      simp only [edgeFlowAux, hidx] at h
      exact Except.noConfusion h
    | some j2 =>
      simp only [edgeFlowAux, hidx] at h
      have hj2get : el[j2]? = some (normalizeEdge (u, v)) := edge_to_idx_getElem hidx
      by_cases hcase : normalizeEdge (u, v) = (a, b)
      · have hjj : j = j2 := by
          have h1 := edge_to_idx_of_getElem hnd hj
          rw [hcase] at hj2get
          have h2 := edge_to_idx_of_getElem hnd hj2get
          exact Option.some.inj (h1.symm.trans h2)
        subst hjj
        rcases normalizeEdge_cases hcase with hfwd | hbwd
        · rw [if_pos (hfwd.trans hcase.symm)] at h
          have hF := ih _ _ h j a b hj
          have hcnt1 : ((u, v) :: rest).countP (fun p => p = (a, b)) =
              rest.countP (fun p => p = (a, b)) + 1 := by
            rw [List.countP_cons]
            simp [hfwd]
          have hcnt2 : ((u, v) :: rest).countP (fun p => p = (b, a)) =
              rest.countP (fun p => p = (b, a)) := by
            rw [List.countP_cons]
            have : ((u, v) : ℕ × ℕ) ≠ (b, a) := by
              rw [hfwd]
              intro hq
              exact absurd (congrArg Prod.fst hq) (Nat.ne_of_lt hab)
            simp [this]
          rw [hcnt1, hcnt2, hF]
          simp only [flowUpdate, if_pos rfl]
          push_cast
          ring
        · have hne : ((u, v) : ℕ × ℕ) ≠ normalizeEdge (u, v) := by
            intro hq
            rw [hcase] at hq
            rw [hbwd] at hq
            exact absurd (congrArg Prod.fst hq) (Ne.symm (Nat.ne_of_lt hab))
          rw [if_neg hne] at h
          have hF := ih _ _ h j a b hj
          have hcnt1 : ((u, v) :: rest).countP (fun p => p = (a, b)) =
              rest.countP (fun p => p = (a, b)) := by
            rw [List.countP_cons]
            have : ((u, v) : ℕ × ℕ) ≠ (a, b) := by
              rw [hbwd]
              intro hq
              exact absurd (congrArg Prod.fst hq) (Ne.symm (Nat.ne_of_lt hab))
            simp [this]
          have hcnt2 : ((u, v) :: rest).countP (fun p => p = (b, a)) =
              rest.countP (fun p => p = (b, a)) + 1 := by
            rw [List.countP_cons]
            simp [hbwd]
          rw [hcnt1, hcnt2, hF]
          simp only [flowUpdate, if_pos rfl]
          push_cast
          ring
      · have hne : j ≠ j2 := by
          intro hq
          subst hq
          exact hcase (Option.some.inj (hj2get.symm.trans hj))
        have hupd : ∀ d : ℤ, flowUpdate f0 j2 d j = f0 j := by
          intro d
          simp [flowUpdate, hne]
        have hcnt1 : ((u, v) :: rest).countP (fun p => p = (a, b)) =
            rest.countP (fun p => p = (a, b)) := by
          rw [List.countP_cons]
          have : ((u, v) : ℕ × ℕ) ≠ (a, b) := by
            intro hq
            rw [hq, normalizeEdge_of_le (le_of_lt hab)] at hcase
            exact hcase rfl
          simp [this]
        have hcnt2 : ((u, v) :: rest).countP (fun p => p = (b, a)) =
            rest.countP (fun p => p = (b, a)) := by
          rw [List.countP_cons]
          have : ((u, v) : ℕ × ℕ) ≠ (b, a) := by
            intro hq
            rw [hq, normalizeEdge_swap (le_of_lt hab)] at hcase
            exact hcase rfl
          simp [this]
        rw [hcnt1, hcnt2]
        by_cases hd : ((u, v) : ℕ × ℕ) = normalizeEdge (u, v)
        · rw [if_pos hd] at h
          have hF := ih _ _ h j a b hj
          rw [hF, hupd]
        · rw [if_neg hd] at h
          have hF := ih _ _ h j a b hj
          rw [hF, hupd]

/-- C5: for a graph whose edges are stored once each and contain no
self-loop, a successful flow encoding has length `M`, and the entry of the
canonical edge `(a, b)` (with `a < b`, at position `j` of `edge_list`) is the
number of traversals `(a, b)` minus the number of traversals `(b, a)`; in
particular repeated traversals accumulate and untraversed edges stay `0`. -/
theorem c5_flow_sign_law (G : Graph) (hdist : EdgesDistinct G)
    (hs : NoSelfLoops G) (ts : List (ℕ × ℕ)) (f : List ℤ)
    (h : get_edge_flow G ts = .ok f) :
    f.length = numEdges G ∧
      ∀ j a b : ℕ, (edge_list G)[j]? = some (a, b) →
        f.getD j 0 = (ts.countP fun p => p = (a, b))
          - (ts.countP fun p => p = (b, a)) := by
  have hnd : (edge_list G).Nodup := edge_list_nodup hdist
  have hlt : ∀ e ∈ edge_list G, e.1 < e.2 := fun e he => edge_list_lt hs he
  unfold get_edge_flow at h
  cases haux : edgeFlowAux (edge_list G) (fun _ => 0) ts with
  | error e => rw [haux] at h; cases h
  | ok F =>
    rw [haux] at h
    injection h with h
    subst h
    constructor
    · simp [numEdges]
    · intro j a b hj
      have hjlt : j < numEdges G := by
        have := List.getElem?_eq_some.mp hj
        exact this.1
      have hchar := edgeFlowAux_char hnd hlt ts _ F haux j a b hj
      have hget : (((List.range (numEdges G)).map F).getD j 0) = F j := by
        rw [List.getD_eq_getElem?_getD, List.getElem?_map,
          List.getElem?_range hjlt]
        rfl
      rw [hget, hchar]
      ring

/-- C5 witness: the sign law instantiated on the triangle complex with the
traversal list `[(1,2),(3,1)]` and its flow vector `[1,-1,0]`. -/
theorem c5_witness :
    ([1, -1, 0] : List ℤ).length = numEdges triG ∧
      ∀ j a b : ℕ, (edge_list triG)[j]? = some (a, b) →
        ([1, -1, 0] : List ℤ).getD j 0 =
          (([(1, 2), (3, 1)] : List (ℕ × ℕ)).countP fun p => p = (a, b))
            - (([(1, 2), (3, 1)] : List (ℕ × ℕ)).countP fun p => p = (b, a)) :=
  c5_flow_sign_law triG (by decide) (by decide) [(1, 2), (3, 1)] [1, -1, 0]
    (by decide)

/-- Concatenating traversal lists composes the accumulator runs. -/
theorem edgeFlowAux_append (el : List (ℕ × ℕ)) (S1 S2 : List (ℕ × ℕ)) :
    ∀ f0 : ℕ → ℤ, edgeFlowAux el f0 (S1 ++ S2) =
      Except.bind (edgeFlowAux el f0 S1) (fun f => edgeFlowAux el f S2) := by
  induction S1 with
  | nil => intro f0; rfl
  | cons p S1 ih =>
    intro f0
    obtain ⟨u, v⟩ := p
    cases hidx : edge_to_idx el (normalizeEdge (u, v)) with
    | none => simp only [List.cons_append, edgeFlowAux, hidx]; rfl
    | some j =>
      simp only [List.cons_append, edgeFlowAux, hidx]
      by_cases hd : ((u, v) : ℕ × ℕ) = normalizeEdge (u, v)
      · rw [if_pos hd, if_pos hd]; exact ih _
      · rw [if_neg hd, if_neg hd]; exact ih _

/-- Running the accumulator from a shifted start shifts the result. -/
theorem edgeFlowAux_shift (el : List (ℕ × ℕ)) :
    ∀ (ts : List (ℕ × ℕ)) (f0 g : ℕ → ℤ),
      edgeFlowAux el (fun i => f0 i + g i) ts =
        (edgeFlowAux el f0 ts).map fun F i => F i + g i := by
  intro ts
  induction ts with
  | nil => intro f0 g; rfl
  | cons p rest ih =>
    intro f0 g
    obtain ⟨u, v⟩ := p
    cases hidx : edge_to_idx el (normalizeEdge (u, v)) with
    | none => simp only [edgeFlowAux, hidx]; rfl
    | some j =>
      simp only [edgeFlowAux, hidx]
      have hupd : ∀ d : ℤ, flowUpdate (fun i => f0 i + g i) j d =
          fun i => flowUpdate f0 j d i + g i := by
        intro d
        funext i
        simp only [flowUpdate]
        by_cases hij : i = j
        · rw [if_pos hij, if_pos hij]; ring
        · rw [if_neg hij, if_neg hij]
      by_cases hd : ((u, v) : ℕ × ℕ) = normalizeEdge (u, v)
      · rw [if_pos hd, if_pos hd, hupd, ih]
      · rw [if_neg hd, if_neg hd, hupd, ih]

theorem zipWith_add_map (F1 F2 : ℕ → ℤ) :
    ∀ r : List ℕ, List.zipWith (· + ·) (r.map F1) (r.map F2) =
      r.map fun i => F1 i + F2 i := by
  intro r
  induction r with
  | nil => rfl
  | cons x xs ih => simp [ih]

/-- C8: flow additivity: if both traversal lists encode successfully, the
concatenation encodes to the componentwise sum of the two flow vectors. -/
theorem c8_flow_additivity (G : Graph) (S1 S2 : List (ℕ × ℕ)) (f1 f2 : List ℤ)
    (h1 : get_edge_flow G S1 = .ok f1) (h2 : get_edge_flow G S2 = .ok f2) :
    get_edge_flow G (S1 ++ S2) = .ok (List.zipWith (· + ·) f1 f2) := by
  unfold get_edge_flow at h1 h2 ⊢
  cases ha1 : edgeFlowAux (edge_list G) (fun _ => 0) S1 with
  | error e => rw [ha1] at h1; cases h1
  | ok F1 =>
    rw [ha1] at h1
    injection h1 with h1
    cases ha2 : edgeFlowAux (edge_list G) (fun _ => 0) S2 with
    | error e => rw [ha2] at h2; cases h2
    | ok F2 =>
      rw [ha2] at h2
      injection h2 with h2
      have hzero : (fun i => (0 : ℤ) + F1 i) = F1 := funext fun i => zero_add _
      have happ := edgeFlowAux_append (edge_list G) S1 S2 (fun _ => 0)
      rw [ha1] at happ
      have hshift := edgeFlowAux_shift (edge_list G) S2 (fun _ => 0) F1
      rw [hzero, ha2] at hshift
      rw [happ]
      show Except.map _ (edgeFlowAux (edge_list G) F1 S2) = _
      rw [hshift]
      subst h1
      subst h2
      rw [zipWith_add_map]
      show Except.ok ((List.range (numEdges G)).map fun i => F2 i + F1 i) = _
      congr 1
      apply List.map_congr_left
      intro i _
      ring

/-- C8 witness: additivity on the triangle complex for the singleton
traversal lists `[(1,2)]` and `[(3,1)]`. -/
theorem c8_witness :
    get_edge_flow triG ([(1, 2)] ++ [(3, 1)]) =
      .ok (List.zipWith (· + ·) [1, 0, 0] [0, -1, 0]) :=
  c8_flow_additivity triG [(1, 2)] [(3, 1)] [1, 0, 0] [0, -1, 0]
    (by decide) (by decide)

theorem psd_transpose_mul {n m : ℕ} (A : Matrix (Fin n) (Fin m) ℝ)
    (x : Fin m → ℝ) : 0 ≤ x ⬝ᵥ (Aᵀ * A).mulVec x := by
  rw [← Matrix.mulVec_mulVec, Matrix.dotProduct_mulVec, Matrix.vecMul_transpose]
  exact Finset.sum_nonneg fun i _ => mul_self_nonneg _

theorem psd_mul_transpose {m t : ℕ} (B : Matrix (Fin m) (Fin t) ℝ)
    (x : Fin m → ℝ) : 0 ≤ x ⬝ᵥ (B * Bᵀ).mulVec x := by
  rw [← Matrix.mulVec_mulVec, Matrix.mulVec_transpose, Matrix.dotProduct_mulVec]
  exact Finset.sum_nonneg fun i _ => mul_self_nonneg _

theorem hodgeL1R_eq (G : Graph) :
    hodgeL1R G =
      ((B1 G).map fun z : ℤ => (z : ℝ))ᵀ * ((B1 G).map fun z : ℤ => (z : ℝ)) +
        ((B2 G).map fun z : ℤ => (z : ℝ)) * ((B2 G).map fun z : ℤ => (z : ℝ))ᵀ := by
  ext i j
  simp only [hodgeL1R, hodgeL1, Matrix.map_apply, Matrix.add_apply,
    Matrix.mul_apply, Matrix.transpose_apply]
  push_cast
  rfl

/-- C7: the Laplacian `L1 = B1.T @ B1 + B2 @ B2.T` assembled by the solver
from the integer incidence matrices of any graph is exactly symmetric, its
real quadratic form is nonnegative for every real vector (positive
semidefiniteness), and consequently every real eigenvalue is nonnegative. -/
theorem c7_laplacian_symmetric_psd (G : Graph) :
    hodgeL1 G = (hodgeL1 G)ᵀ ∧
      (∀ x : Fin (numEdges G) → ℝ, 0 ≤ x ⬝ᵥ (hodgeL1R G).mulVec x) ∧
      ∀ (μ : ℝ) (v : Fin (numEdges G) → ℝ), v ≠ 0 →
        (hodgeL1R G).mulVec v = μ • v → 0 ≤ μ := by
  have hpsd : ∀ x : Fin (numEdges G) → ℝ, 0 ≤ x ⬝ᵥ (hodgeL1R G).mulVec x := by
    intro x
    rw [hodgeL1R_eq, Matrix.add_mulVec, Matrix.dotProduct_add]
    exact add_nonneg (psd_transpose_mul _ x) (psd_mul_transpose _ x)
  refine ⟨?_, hpsd, ?_⟩
  · simp [hodgeL1, Matrix.transpose_add, Matrix.transpose_mul,
      Matrix.transpose_transpose]
  · intro μ v hv hev
    have h1 := hpsd v
    rw [hev, Matrix.dotProduct_smul, smul_eq_mul] at h1
    have hvv : 0 < v ⬝ᵥ v := by
      obtain ⟨i, hi⟩ := Function.ne_iff.mp hv
      rw [Pi.zero_apply] at hi
      exact Finset.sum_pos' (fun k _ => mul_self_nonneg _)
        ⟨i, Finset.mem_univ i, mul_self_pos.mpr hi⟩
    by_contra hneg
    push_neg at hneg
    exact absurd h1 (not_le.mpr (mul_neg_of_neg_of_pos hneg hvv))

/-- C7 witness: on the triangle complex `L1 = 3·I`, so symmetry holds, the
quadratic form is nonnegative at a concrete vector, and the concrete
eigenpair `(3, [1,0,0])` yields a nonnegative eigenvalue. -/
theorem c7_witness :
    hodgeL1 triG = (hodgeL1 triG)ᵀ ∧
      0 ≤ (![1, 0, 0] : Fin (numEdges triG) → ℝ) ⬝ᵥ
        (hodgeL1R triG).mulVec ![1, 0, 0] ∧
      0 ≤ (3 : ℝ) := by
  have hL3 : hodgeL1 triG = (3 : ℤ) • 1 := by decide
  have hR : hodgeL1R triG = (3 : ℝ) • 1 := by
    ext i j
    simp only [hodgeL1R, Matrix.map_apply, hL3, Matrix.smul_apply,
      Matrix.one_apply, smul_eq_mul]
    push_cast
    split_ifs <;> norm_num
  have hev : (hodgeL1R triG).mulVec (![1, 0, 0] : Fin (numEdges triG) → ℝ) =
      (3 : ℝ) • ![1, 0, 0] := by
    rw [hR, Matrix.smul_mulVec_assoc, Matrix.one_mulVec]
  have hvne : (![1, 0, 0] : Fin (numEdges triG) → ℝ) ≠ 0 := by
    intro h
    have h0 := congrFun h (⟨0, by decide⟩ : Fin (numEdges triG))
    norm_num at h0
  exact ⟨(c7_laplacian_symmetric_psd triG).1,
    (c7_laplacian_symmetric_psd triG).2.1 ![1, 0, 0],
    (c7_laplacian_symmetric_psd triG).2.2 3 ![1, 0, 0] hvne hev⟩

end HodgeFlow
